import Mathlib

/-!
Verification of the scoring engine of `evaluation90.py` (bid evaluation
simulator).  Numbers are modelled as rationals; the table is a list of
records.  Definitions follow the Python source: `calc_standard` (Tab 1,
linear-deduction model), `calc_min_ratio` together with the table-wide
minimum bid price (Tab 2, minimum-ratio model), the per-tab recompute
passes, and the winner selection by `idxmax` over the total column.
-/

/-- Configuration parameters from the sidebar: the five score maxima
`max_s1 … max_s5` and the target price `target_price`. -/
structure Config where
  max_s1 : ℚ
  max_s2 : ℚ
  max_s3 : ℚ
  max_s4 : ℚ
  max_s5 : ℚ
  target_price : ℚ
deriving DecidableEq

/-- `full_score_price = target_price * 0.8` (source line 39). -/
def Config.full_score_price (c : Config) : ℚ := c.target_price * 0.8

/-- One row of the data frame: company name, the three criterion scores
(①実績, ②技術提案, ③地域貢献), the bid price (入札価格), the derived
price score (④工事費評価), the reduction score (⑤削減提案) and the
derived total (合計点). -/
structure Row where
  name : String
  s1 : ℚ
  s2 : ℚ
  s3 : ℚ
  price : ℚ
  s4 : ℚ
  s5 : ℚ
  total : ℚ
deriving DecidableEq

/-- Tab 1 per-row calculation `calc_standard` (source lines 118-138):
price at or below the full-score threshold gives the full `max_s4`;
price at or above the target gives 0; in between, linear interpolation
`(target_price - price) / (target_price - full_score_price) * max_s4`.
The row's `s4` and `total` columns are overwritten. -/
def calc_standard (c : Config) (row : Row) : Row :=
  let price := row.price
  let s4 : ℚ :=
    if price ≤ c.full_score_price then
      c.max_s4
    else if price ≥ c.target_price then
      0
    else
      let range_width := c.target_price - c.full_score_price
      let price_diff := c.target_price - price
      (price_diff / range_width) * c.max_s4
  let total := row.s1 + row.s2 + row.s3 + s4 + row.s5
  { row with s4 := s4, total := total }

/-- Tab 2: the bid prices of the rows with `price > 0`
(source line 197: `edited_df_t2[edited_df_t2["入札価格"] > 0]["入札価格"]`). -/
def valid_prices (table : List Row) : List ℚ :=
  (table.filter (fun r => 0 < r.price)).map (fun r => r.price)

/-- Tab 2: the minimum of the valid prices, 0 when there is none
(source lines 199-203). -/
def min_price (table : List Row) : ℚ :=
  match valid_prices table with
  | [] => 0
  | p :: ps => ps.foldl min p

/-- Tab 2 per-row calculation `calc_min_ratio` (source lines 205-212):
`(min_price / price) * max_s4` when both the row's price and the
table-wide minimum are positive, otherwise 0. -/
def calc_min_ratio (minp : ℚ) (c : Config) (row : Row) : Row :=
  let s4 : ℚ :=
    if 0 < row.price ∧ 0 < minp then (minp / row.price) * c.max_s4 else 0
  let total := row.s1 + row.s2 + row.s3 + s4 + row.s5
  { row with s4 := s4, total := total }

/-- The model selector: Tab 1 (standard / linear deduction) or Tab 2
(alternative / minimum ratio). -/
inductive Model where
  | standard
  | min_ratio
deriving DecidableEq

/-- One recompute pass over the whole table (source lines 141-143 for
Tab 1, 196-214 for Tab 2): every row's `s4` and `total` are rewritten by
the selected model; under the minimum-ratio model the table-wide
`min_price` is taken from the input table before any row is changed. -/
def recompute (c : Config) (m : Model) (table : List Row) : List Row :=
  match m with
  | .standard => table.map (calc_standard c)
  | .min_ratio =>
      let minp := min_price table
      table.map (calc_min_ratio minp c)

/-- Winner of a nonempty table: `idxmax` over the total column keeps the
earliest row on ties, because a later row replaces the current best only
when its total is strictly larger. -/
def best_row (r : Row) (rs : List Row) : Row :=
  match rs with
  | [] => r
  | x :: xs =>
      let b := best_row x xs
      if r.total < b.total then b else r

/-- Winner selection (source lines 151-154 / 222-225): on an empty table
the result block is skipped (`none`); otherwise the name and total of
the first row attaining the maximal total (`idxmax` + column `max`). -/
def rank (table : List Row) : Option (String × ℚ) :=
  match table with
  | [] => none
  | r :: rs =>
      let b := best_row r rs
      some (b.name, b.total)

/-- Reference piecewise definition of the standard-model price score,
written from the spec's words (section 4.2): `maxScorePrice` when
`price ≤ fullScoreThreshold`; 0 when `price ≥ targetPrice`; otherwise
the linear interpolation. -/
def linear_model_ref (maxScorePrice targetPrice fullScoreThreshold price : ℚ) : ℚ :=
  if price ≤ fullScoreThreshold then
    maxScorePrice
  else if price ≥ targetPrice then
    0
  else
    (targetPrice - price) / (targetPrice - fullScoreThreshold) * maxScorePrice

/-- C2: under the standard model with `fullScoreThreshold = targetPrice * 0.8`,
every record's price score equals the spec's piecewise reference definition. -/
theorem calc_standard_matches_ref (c : Config) (r : Row) :
    (calc_standard c r).s4 =
      linear_model_ref c.max_s4 c.target_price (c.target_price * 0.8) r.price := by
  rfl

/-- C9: whenever the interpolation branch of `calc_standard` is reached
(the price is above the full-score threshold and below the target), the
divisor `target_price - full_score_price` is strictly positive, so the
division is well defined and the function is total. -/
theorem calc_standard_divisor_pos (c : Config) (r : Row)
    (h1 : ¬ r.price ≤ c.full_score_price) (h2 : ¬ r.price ≥ c.target_price) :
    0 < c.target_price - c.full_score_price ∧
      (calc_standard c r).s4 =
        (c.target_price - r.price) / (c.target_price - c.full_score_price) * c.max_s4 := by
  constructor
  · push_neg at h1 h2
    linarith
  · simp only [calc_standard]
    split_ifs
    rfl

/-- The default sidebar configuration of the source (lines 24-28, 38). -/
def default_config : Config :=
  { max_s1 := 10, max_s2 := 90, max_s3 := 10, max_s4 := 90, max_s5 := 25,
    target_price := 420 }

/-- A concrete record bidding 380 (company B of the initial data). -/
def row_B : Row :=
  { name := "B", s1 := 10, s2 := 70, s3 := 8, price := 380, s4 := 0,
    s5 := 25, total := 0 }

/-- Witness for C9 at a concrete configuration and record. -/
theorem calc_standard_divisor_pos_witness :
    ¬ row_B.price ≤ default_config.full_score_price ∧
    ¬ row_B.price ≥ default_config.target_price ∧
    (0 < default_config.target_price - default_config.full_score_price ∧
      (calc_standard default_config row_B).s4 =
        (default_config.target_price - row_B.price) /
          (default_config.target_price - default_config.full_score_price) *
          default_config.max_s4) :=
  ⟨by norm_num [row_B, default_config, Config.full_score_price],
    by norm_num [row_B, default_config],
    calc_standard_divisor_pos default_config row_B
      (by norm_num [row_B, default_config, Config.full_score_price])
      (by norm_num [row_B, default_config])⟩

/-- C10: under the standard model with a non-negative target price, a
record bidding 0 lands in the full-score branch (`0 ≤ target_price * 0.8`
is tested first) and receives the full `max_s4`. -/
theorem calc_standard_zero_bid (c : Config) (r : Row)
    (htp : 0 ≤ c.target_price) (hz : r.price = 0) :
    (calc_standard c r).s4 = c.max_s4 := by
  simp only [calc_standard, Config.full_score_price]
  rw [if_pos]
  rw [hz]
  nlinarith

/-- A concrete record bidding 0. -/
def row_Z : Row :=
  { name := "Z", s1 := 0, s2 := 0, s3 := 0, price := 0, s4 := 0,
    s5 := 0, total := 0 }

/-- Witness for C10 at a concrete configuration and record. -/
theorem calc_standard_zero_bid_witness :
    (0 : ℚ) ≤ default_config.target_price ∧
    (calc_standard default_config row_Z).s4 = default_config.max_s4 :=
  ⟨by norm_num [default_config],
    calc_standard_zero_bid default_config row_Z
      (by norm_num [default_config]) (by norm_num [row_Z])⟩

/-- The default configuration with the target price set to 0. -/
def zero_target_config : Config :=
  { max_s1 := 10, max_s2 := 90, max_s3 := 10, max_s4 := 90, max_s5 := 25,
    target_price := 0 }

/-- C1 counterexample: with `target_price = 0` (so `target_price ≤ 0` and
`target_price - full_score_price ≤ 0`) and a record bidding 0, the
full-score branch `price ≤ full_score_price` fires first (`0 ≤ 0`), so
the price score is the full `max_s4 = 90`, not 0 as the claim states. -/
theorem calc_standard_degenerate_counterexample :
    zero_target_config.target_price ≤ 0 ∧
    zero_target_config.target_price - zero_target_config.full_score_price ≤ 0 ∧
    0 ≤ row_Z.price ∧
    (calc_standard zero_target_config row_Z).s4 = 90 ∧ (90 : ℚ) ≠ 0 := by
  refine ⟨?_, ?_, ?_, ?_, ?_⟩ <;>
    norm_num [zero_target_config, row_Z, Config.full_score_price, calc_standard]

/-- C1 amended: with `target_price ≤ 0` and a non-negative bid, the
interpolation branch is never reached (one of the first two branch
conditions holds, so no division is performed), and the price score is 0
except in the single corner `target_price = 0 ∧ price = 0`, where the
full-score branch fires and the score is `max_s4`. -/
theorem calc_standard_degenerate (c : Config) (r : Row)
    (htp : c.target_price ≤ 0) (hp : 0 ≤ r.price) :
    (r.price ≤ c.full_score_price ∨ r.price ≥ c.target_price) ∧
    (calc_standard c r).s4 =
      (if c.target_price = 0 ∧ r.price = 0 then c.max_s4 else 0) := by
  have hfs : c.full_score_price = c.target_price * 0.8 := rfl
  constructor
  · rcases lt_or_eq_of_le htp with h | h
    · right; linarith
    · rcases lt_or_eq_of_le hp with h2 | h2
      · right; linarith
      · left; rw [hfs, h, ← h2]; norm_num
  · by_cases h1 : r.price ≤ c.full_score_price
    · have h1x : r.price ≤ c.target_price * 0.8 := by rw [← hfs]; exact h1
      have hp0 : r.price = 0 := le_antisymm (by linarith) hp
      have htp0 : c.target_price = 0 := le_antisymm htp (by linarith)
      simp only [calc_standard]
      rw [if_pos h1, if_pos ⟨htp0, hp0⟩]
    · by_cases h2 : r.price ≥ c.target_price
      · have hcond : ¬ (c.target_price = 0 ∧ r.price = 0) := by
          rintro ⟨ha, hb⟩
          apply h1
          rw [hfs, ha, hb]
          norm_num
        simp only [calc_standard]
        rw [if_neg h1, if_pos h2, if_neg hcond]
      · exfalso
        rw [hfs] at h1
        push_neg at h1 h2
        linarith

/-- Witness for the amended C1 at a concrete configuration and record. -/
theorem calc_standard_degenerate_witness :
    zero_target_config.target_price ≤ 0 ∧ (0 : ℚ) ≤ row_B.price ∧
    ((row_B.price ≤ zero_target_config.full_score_price ∨
        row_B.price ≥ zero_target_config.target_price) ∧
      (calc_standard zero_target_config row_B).s4 =
        (if zero_target_config.target_price = 0 ∧ row_B.price = 0 then
          zero_target_config.max_s4 else 0)) :=
  ⟨by norm_num [zero_target_config], by norm_num [row_B],
    calc_standard_degenerate zero_target_config row_B
      (by norm_num [zero_target_config]) (by norm_num [row_B])⟩

/-- Folding `min` never rises above the initial accumulator. -/
theorem foldl_min_le_init (ps : List ℚ) (p : ℚ) : ps.foldl min p ≤ p := by
  induction ps generalizing p with
  | nil => simp
  | cons x xs ih =>
      simp only [List.foldl_cons]
      exact le_trans (ih (min p x)) (min_le_left _ _)

/-- Folding `min` never rises above any list element. -/
theorem foldl_min_le_mem (ps : List ℚ) (p x : ℚ) (hx : x ∈ ps) :
    ps.foldl min p ≤ x := by
  induction ps generalizing p with
  | nil => cases hx
  | cons y ys ih =>
      simp only [List.foldl_cons]
      rcases List.mem_cons.mp hx with h | h
      · exact le_trans (foldl_min_le_init ys (min p y)) (h ▸ min_le_right p y)
      · exact ih _ h

/-- A strict lower bound of the accumulator and of every element is a
strict lower bound of the fold. -/
theorem lt_foldl_min (ps : List ℚ) (p a : ℚ) (hp : a < p)
    (h : ∀ x ∈ ps, a < x) : a < ps.foldl min p := by
  induction ps generalizing p with
  | nil => exact hp
  | cons y ys ih =>
      simp only [List.foldl_cons]
      exact ih (min p y) (lt_min hp (h y (List.mem_cons_self _ _)))
        (fun x hx => h x (List.mem_cons_of_mem _ hx))

/-- A record of the table with positive price contributes its price to
the valid-price list. -/
theorem mem_valid_prices (t : List Row) (r : Row) (hr : r ∈ t)
    (hp : 0 < r.price) : r.price ∈ valid_prices t :=
  List.mem_map_of_mem _ (List.mem_filter.mpr ⟨hr, by simpa using hp⟩)

/-- Every valid price is positive. -/
theorem valid_prices_pos (t : List Row) : ∀ x ∈ valid_prices t, 0 < x := by
  intro x hx
  simp only [valid_prices, List.mem_map, List.mem_filter] at hx
  obtain ⟨r, ⟨_, hp⟩, rfl⟩ := hx
  simpa using hp

/-- The table-wide minimum is at most the price of any record of the
table with positive price. -/
theorem min_price_le (t : List Row) (r : Row) (hr : r ∈ t)
    (hp : 0 < r.price) : min_price t ≤ r.price := by
  have hmem : r.price ∈ valid_prices t := mem_valid_prices t r hr hp
  unfold min_price
  split
  · next heq => rw [heq] at hmem; cases hmem
  · next p ps heq =>
      rw [heq] at hmem
      rcases List.mem_cons.mp hmem with h | h
      · exact h ▸ foldl_min_le_init ps p
      · exact foldl_min_le_mem ps p _ h

/-- As soon as some record of the table has positive price, the
table-wide minimum is positive. -/
theorem min_price_pos (t : List Row) (r : Row) (hr : r ∈ t)
    (hp : 0 < r.price) : 0 < min_price t := by
  have hmem : r.price ∈ valid_prices t := mem_valid_prices t r hr hp
  unfold min_price
  split
  · next heq => rw [heq] at hmem; cases hmem
  · next p ps heq =>
      have hpos := valid_prices_pos t
      rw [heq] at hpos
      exact lt_foldl_min ps p 0 (hpos p (List.mem_cons_self _ _))
        (fun x hx => hpos x (List.mem_cons_of_mem _ hx))

/-- C3: after a recompute pass under either model, every record's total
is exactly the sum of its five sub-scores. -/
theorem recompute_total_sum (c : Config) (m : Model) (t : List Row)
    (r : Row) (h : r ∈ recompute c m t) :
    r.total = r.s1 + r.s2 + r.s3 + r.s4 + r.s5 := by
  cases m with
  | standard =>
      simp only [recompute] at h
      obtain ⟨x, _, rfl⟩ := List.mem_map.mp h
      rfl
  | min_ratio =>
      simp only [recompute] at h
      obtain ⟨x, _, rfl⟩ := List.mem_map.mp h
      rfl

/-- Witness for C3 on a concrete one-row table. -/
theorem recompute_total_sum_witness :
    (calc_standard default_config row_B) ∈
        recompute default_config Model.standard [row_B] ∧
    (calc_standard default_config row_B).total =
      (calc_standard default_config row_B).s1 +
      (calc_standard default_config row_B).s2 +
      (calc_standard default_config row_B).s3 +
      (calc_standard default_config row_B).s4 +
      (calc_standard default_config row_B).s5 :=
  ⟨List.mem_singleton.mpr rfl,
    recompute_total_sum default_config Model.standard [row_B]
      (calc_standard default_config row_B) (List.mem_singleton.mpr rfl)⟩

/-- Per-row bounds of the standard model: with a non-negative `max_s4`
the price score lies in `[0, max_s4]`. -/
theorem calc_standard_s4_bounds (c : Config) (r : Row) (hmax : 0 ≤ c.max_s4) :
    0 ≤ (calc_standard c r).s4 ∧ (calc_standard c r).s4 ≤ c.max_s4 := by
  simp only [calc_standard]
  split_ifs with h1 h2
  · exact ⟨hmax, le_refl _⟩
  · exact ⟨le_refl _, hmax⟩
  · push_neg at h1 h2
    have hd : 0 < c.target_price - c.full_score_price := by linarith
    constructor
    · apply mul_nonneg _ hmax
      apply div_nonneg <;> linarith
    · have hr1 : (c.target_price - r.price) / (c.target_price - c.full_score_price) ≤ 1 := by
        rw [div_le_one hd]
        linarith
      calc (c.target_price - r.price) / (c.target_price - c.full_score_price) * c.max_s4
          ≤ 1 * c.max_s4 := mul_le_mul_of_nonneg_right hr1 hmax
        _ = c.max_s4 := one_mul _

/-- Per-row bounds of the minimum-ratio model: with a non-negative
`max_s4` and a ratio base not exceeding the row's own positive price,
the price score lies in `[0, max_s4]`. -/
theorem calc_min_ratio_s4_bounds (minp : ℚ) (c : Config) (r : Row)
    (hmax : 0 ≤ c.max_s4) (hle : 0 < r.price → minp ≤ r.price) :
    0 ≤ (calc_min_ratio minp c r).s4 ∧ (calc_min_ratio minp c r).s4 ≤ c.max_s4 := by
  simp only [calc_min_ratio]
  split_ifs with h
  · obtain ⟨hpr, hm⟩ := h
    constructor
    · exact mul_nonneg (div_nonneg hm.le hpr.le) hmax
    · have hr1 : minp / r.price ≤ 1 := by
        rw [div_le_one hpr]
        exact hle hpr
      calc minp / r.price * c.max_s4
          ≤ 1 * c.max_s4 := mul_le_mul_of_nonneg_right hr1 hmax
        _ = c.max_s4 := one_mul _
  · exact ⟨le_refl _, hmax⟩

/-- C4: with `max_s4 ≥ 0`, every record produced by a recompute pass
under either model has a price score in `[0, max_s4]`; in particular
when `max_s4 = 0` every price score is 0. -/
theorem recompute_s4_bounds (c : Config) (m : Model) (t : List Row)
    (r : Row) (hmax : 0 ≤ c.max_s4) (hbid : 0 ≤ r.price)
    (h : r ∈ recompute c m t) :
    (0 ≤ r.s4 ∧ r.s4 ≤ c.max_s4) ∧ (c.max_s4 = 0 → r.s4 = 0) := by
  have hb : 0 ≤ r.s4 ∧ r.s4 ≤ c.max_s4 := by
    cases m with
    | standard =>
        simp only [recompute] at h
        obtain ⟨x, _, rfl⟩ := List.mem_map.mp h
        exact calc_standard_s4_bounds c x hmax
    | min_ratio =>
        simp only [recompute] at h
        obtain ⟨x, hx, rfl⟩ := List.mem_map.mp h
        exact calc_min_ratio_s4_bounds (min_price t) c x hmax
          (fun hp => min_price_le t x hx hp)
  exact ⟨hb, fun hz => le_antisymm (hz ▸ hb.2) hb.1⟩

/-- Witness for C4 on a concrete one-row table. -/
theorem recompute_s4_bounds_witness :
    (0 : ℚ) ≤ default_config.max_s4 ∧
    (0 : ℚ) ≤ (calc_standard default_config row_B).price ∧
    ((0 ≤ (calc_standard default_config row_B).s4 ∧
        (calc_standard default_config row_B).s4 ≤ default_config.max_s4) ∧
      (default_config.max_s4 = 0 → (calc_standard default_config row_B).s4 = 0)) :=
  ⟨by norm_num [default_config],
    by norm_num [calc_standard, row_B],
    recompute_s4_bounds default_config Model.standard [row_B]
      (calc_standard default_config row_B)
      (by norm_num [default_config])
      (by norm_num [calc_standard, row_B])
      (List.mem_singleton.mpr rfl)⟩

/-- C5: under the minimum-ratio model, when the table-wide minimum is
positive, every record of the table whose bid equals that minimum gets
exactly `max_s4`, and its recomputed row is part of the recompute
output. -/
theorem min_ratio_full_score_at_min (c : Config) (t : List Row) (r : Row)
    (hr : r ∈ t) (hmin : r.price = min_price t) (hpos : 0 < min_price t) :
    (calc_min_ratio (min_price t) c r).s4 = c.max_s4 ∧
      calc_min_ratio (min_price t) c r ∈ recompute c Model.min_ratio t := by
  constructor
  · simp only [calc_min_ratio]
    rw [if_pos (And.intro (by rw [hmin]; exact hpos) hpos)]
    rw [hmin, div_self hpos.ne', one_mul]
  · simp only [recompute]
    exact List.mem_map_of_mem _ hr

/-- A concrete record bidding 340 (company C of the initial data). -/
def row_C : Row :=
  { name := "C", s1 := 6, s2 := 55, s3 := 6, price := 340, s4 := 0,
    s5 := 25, total := 0 }

/-- A concrete record bidding 420 (company A of the initial data). -/
def row_A : Row :=
  { name := "A", s1 := 10, s2 := 85, s3 := 10, price := 420, s4 := 0,
    s5 := 25, total := 0 }

/-- Witness for C5 on the concrete three-row initial table. -/
theorem min_ratio_full_score_at_min_witness :
    row_C ∈ [row_A, row_B, row_C] ∧
    row_C.price = min_price [row_A, row_B, row_C] ∧
    0 < min_price [row_A, row_B, row_C] ∧
    ((calc_min_ratio (min_price [row_A, row_B, row_C]) default_config row_C).s4 =
        default_config.max_s4 ∧
      calc_min_ratio (min_price [row_A, row_B, row_C]) default_config row_C ∈
        recompute default_config Model.min_ratio [row_A, row_B, row_C]) :=
  ⟨by simp, by norm_num [min_price, valid_prices, row_A, row_B, row_C],
    by norm_num [min_price, valid_prices, row_A, row_B, row_C],
    min_ratio_full_score_at_min default_config [row_A, row_B, row_C] row_C
      (by simp)
      (by norm_num [min_price, valid_prices, row_A, row_B, row_C])
      (by norm_num [min_price, valid_prices, row_A, row_B, row_C])⟩

/-- The row selected by `best_row` is in the table, bounds every total
from above, and every row strictly before it has a strictly smaller
total (so the earliest maximum wins). -/
theorem best_row_spec (r : Row) (rs : List Row) :
    (∀ x ∈ r :: rs, x.total ≤ (best_row r rs).total) ∧
    ∃ i, (r :: rs).get? i = some (best_row r rs) ∧
      ∀ j, j < i → ∀ x, (r :: rs).get? j = some x →
        x.total < (best_row r rs).total := by
  induction rs generalizing r with
  | nil =>
      refine ⟨?_, 0, rfl, ?_⟩
      · intro x hx
        rcases List.mem_cons.mp hx with h | h
        · rw [h]; exact le_refl _
        · cases h
      · intro j hj
        exact absurd hj (Nat.not_lt_zero j)
  | cons y ys ih =>
      obtain ⟨ihmax, i', hi', ihfirst⟩ := ih y
      by_cases h : r.total < (best_row y ys).total
      · have hb : best_row r (y :: ys) = best_row y ys := by
          simp [best_row, h]
        refine ⟨?_, i' + 1, ?_, ?_⟩
        · intro x hx
          rcases List.mem_cons.mp hx with h2 | h2
          · rw [hb, h2]; exact le_of_lt h
          · rw [hb]; exact ihmax x h2
        · rw [hb]; simpa using hi'
        · intro j hj x hx
          cases j with
          | zero =>
              have hxr : r = x := by simpa using hx
              rw [hb, ← hxr]; exact h
          | succ k =>
              rw [hb]
              exact ihfirst k (Nat.lt_of_succ_lt_succ hj) x (by simpa using hx)
      · have hb : best_row r (y :: ys) = r := by
          simp [best_row, h]
        push_neg at h
        refine ⟨?_, 0, by simp [hb], ?_⟩
        · intro x hx
          rcases List.mem_cons.mp hx with h2 | h2
          · rw [hb, h2]
          · rw [hb]; exact le_trans (ihmax x h2) h
        · intro j hj
          exact absurd hj (Nat.not_lt_zero j)

/-- C6: `rank` of an empty table is the no-winner sentinel; on a
nonempty table it returns the name and total of a row of the table whose
total is maximal and which is the earliest such row (every strictly
earlier row has a strictly smaller total). -/
theorem rank_spec :
    rank [] = none ∧
    ∀ (r : Row) (rs : List Row),
      ∃ b i, rank (r :: rs) = some (b.name, b.total) ∧
        (r :: rs).get? i = some b ∧
        (∀ x ∈ r :: rs, x.total ≤ b.total) ∧
        ∀ j, j < i → ∀ x, (r :: rs).get? j = some x → x.total < b.total := by
  refine ⟨rfl, ?_⟩
  intro r rs
  obtain ⟨hmax, i, hi, hfirst⟩ := best_row_spec r rs
  exact ⟨best_row r rs, i, rfl, hi, hmax, hfirst⟩

/-- The standard-model pass only rewrites the two derived columns, so
applying it to its own output changes nothing. -/
theorem calc_standard_idem (c : Config) (r : Row) :
    calc_standard c (calc_standard c r) = calc_standard c r := rfl

/-- The minimum-ratio pass only rewrites the two derived columns, so
applying it (with the same ratio base) to its own output changes
nothing. -/
theorem calc_min_ratio_idem (minp : ℚ) (c : Config) (r : Row) :
    calc_min_ratio minp c (calc_min_ratio minp c r) = calc_min_ratio minp c r := rfl

/-- A row transformation that keeps the price column fixed keeps the
valid-price list fixed. -/
theorem valid_prices_map (f : Row → Row) (hf : ∀ r, (f r).price = r.price)
    (t : List Row) : valid_prices (t.map f) = valid_prices t := by
  induction t with
  | nil => rfl
  | cons r rs ih =>
      simp only [valid_prices, List.map_cons, List.filter_cons] at ih ⊢
      rw [hf r]
      by_cases h : 0 < r.price
      · simp [h, hf r, ih]
      · simp [h, ih]

/-- C7: one recompute pass is idempotent under either model — the
derived columns are functions of the untouched columns and the
configuration only (for the minimum-ratio model, the table-wide minimum
is unchanged because no price is rewritten). -/
theorem recompute_idem (c : Config) (m : Model) (t : List Row) :
    recompute c m (recompute c m t) = recompute c m t := by
  cases m with
  | standard =>
      simp only [recompute, List.map_map]
      apply List.map_congr_left
      intro x _
      exact calc_standard_idem c x
  | min_ratio =>
      simp only [recompute]
      have key : ∀ minp : ℚ,
          min_price (t.map (calc_min_ratio minp c)) = min_price t := by
        intro minp
        unfold min_price
        rw [valid_prices_map (calc_min_ratio minp c) (fun r => rfl) t]
      rw [key (min_price t), List.map_map]
      apply List.map_congr_left
      intro x _
      exact calc_min_ratio_idem (min_price t) c x

/-- The record bidding 0, re-submitted with a bid of 50. -/
def row_Z50 : Row := { row_Z with price := 50 }

/-- C8 counterexample: under the minimum-ratio model, raising one's own
bid can raise one's own price score.  In the table `[row_Z, row_B]` the
zero bid of `row_Z` scores 0; raising that bid from 0 to 50 (others
fixed) makes it the table-wide minimum and the score jumps to the full
90, so the score is not monotonically non-increasing in the own bid. -/
theorem min_ratio_own_price_counterexample :
    row_Z.price ≤ row_Z50.price ∧
    row_Z50 = { row_Z with price := 50 } ∧
    (calc_min_ratio (min_price [row_Z, row_B]) default_config row_Z).s4 <
      (calc_min_ratio (min_price [row_Z50, row_B]) default_config row_Z50).s4 := by
  refine ⟨by norm_num [row_Z, row_Z50], rfl, ?_⟩
  norm_num [calc_min_ratio, min_price, valid_prices, row_Z, row_Z50, row_B,
    default_config]

/-- Minimum of two optional rationals, `none` acting as the identity. -/
def opt_min (a b : Option ℚ) : Option ℚ :=
  match a, b with
  | none, b => b
  | some x, none => some x
  | some x, some y => some (min x y)

/-- Minimum of a list of rationals, `none` on the empty list. -/
def minQ (l : List ℚ) : Option ℚ :=
  match l with
  | [] => none
  | q :: qs => some (qs.foldl min q)

/-- Pulling the first accumulator out of a `min` fold. -/
theorem foldl_min_shift (a : ℚ) (l : List ℚ) :
    ∀ b : ℚ, l.foldl min (min a b) = min a (l.foldl min b) := by
  induction l with
  | nil => intro b; rfl
  | cons x xs ih =>
      intro b
      simp only [List.foldl_cons]
      rw [min_assoc, ih (min b x)]

/-- Cons step of `minQ`. -/
theorem minQ_cons (q : ℚ) (l : List ℚ) :
    minQ (q :: l) = opt_min (some q) (minQ l) := by
  cases l with
  | nil => rfl
  | cons x xs =>
      simp only [minQ, opt_min, List.foldl_cons]
      rw [foldl_min_shift]

/-- `opt_min` is associative. -/
theorem opt_min_assoc (a b d : Option ℚ) :
    opt_min (opt_min a b) d = opt_min a (opt_min b d) := by
  cases a <;> cases b <;> cases d <;> simp [opt_min, min_assoc]

/-- `opt_min` commutes over its second argument. -/
theorem opt_min_left_comm (a b d : Option ℚ) :
    opt_min a (opt_min b d) = opt_min b (opt_min a d) := by
  cases a <;> cases b <;> cases d <;> simp [opt_min, min_left_comm, min_comm]

/-- Append step of `minQ`. -/
theorem minQ_append (a b : List ℚ) :
    minQ (a ++ b) = opt_min (minQ a) (minQ b) := by
  induction a with
  | nil => rfl
  | cons q qs ih =>
      rw [List.cons_append, minQ_cons, ih, minQ_cons, opt_min_assoc]

/-- `min_price` through `minQ`. -/
theorem min_price_eq_minQ (t : List Row) :
    min_price t = (minQ (valid_prices t)).getD 0 := by
  rcases hv : valid_prices t with _ | ⟨p, ps⟩ <;> simp [min_price, minQ, hv]

/-- The valid-price list distributes over append. -/
theorem valid_prices_append (a b : List Row) :
    valid_prices (a ++ b) = valid_prices a ++ valid_prices b := by
  simp [valid_prices, List.filter_append]

/-- The valid-price list of a table around one positive-price record. -/
theorem valid_prices_middle (pre post : List Row) (r : Row)
    (hp : 0 < r.price) :
    valid_prices (pre ++ r :: post) =
      valid_prices pre ++ r.price :: valid_prices post := by
  simp [valid_prices, List.filter_append, List.filter_cons, hp]

/-- The minimum of a list of positives is positive. -/
theorem minQ_pos (l : List ℚ) (hl : ∀ x ∈ l, 0 < x) (M : ℚ)
    (hM : minQ l = some M) : 0 < M := by
  cases l with
  | nil => cases hM
  | cons q qs =>
      simp only [minQ, Option.some.injEq] at hM
      rw [← hM]
      exact lt_foldl_min qs q 0 (hl q (List.mem_cons_self _ _))
        (fun x hx => hl x (List.mem_cons_of_mem _ hx))

/-- The table-wide minimum around one positive-price record is that
record's price combined with the minimum over the remaining records. -/
theorem min_price_middle (pre post : List Row) (r : Row) (hp : 0 < r.price) :
    min_price (pre ++ r :: post) =
      (opt_min (some r.price) (minQ (valid_prices (pre ++ post)))).getD 0 := by
  rw [min_price_eq_minQ, valid_prices_middle pre post r hp, minQ_append,
    minQ_cons, opt_min_left_comm, ← minQ_append, ← valid_prices_append]

/-- The minimum-ratio score `min p2 M / p2 * s` is non-increasing as the
own price `p2` rises above `p`, for positive prices and minimum. -/
theorem ratio_mono (p p2 M s : ℚ) (hp : 0 < p) (hpp : p ≤ p2) (hM : 0 < M)
    (hs : 0 ≤ s) : min p2 M / p2 * s ≤ min p M / p * s := by
  have hp2 : 0 < p2 := lt_of_lt_of_le hp hpp
  apply mul_le_mul_of_nonneg_right _ hs
  rw [div_le_div_iff₀ hp2 hp]
  rcases le_total p M with h1 | h1
  · rcases le_total p2 M with h2 | h2
    · rw [min_eq_left h1, min_eq_left h2]; nlinarith
    · rw [min_eq_left h1, min_eq_right h2]; nlinarith
  · have h2 : M ≤ p2 := le_trans h1 hpp
    rw [min_eq_right h1, min_eq_right h2]; nlinarith

/-- C8 amended: under the minimum-ratio model, with a non-negative
`max_s4` and a strictly positive own bid, raising one's own bid (others
fixed, the table-wide minimum recomputed) never raises one's own price
score.  (For a bid raised from 0 the property fails, see the
counterexample.) -/
theorem calc_min_ratio_own_price_mono (c : Config) (pre post : List Row)
    (r : Row) (p2 : ℚ) (hmax : 0 ≤ c.max_s4) (hp : 0 < r.price)
    (hpp : r.price ≤ p2) :
    (calc_min_ratio (min_price (pre ++ { r with price := p2 } :: post)) c
        { r with price := p2 }).s4 ≤
      (calc_min_ratio (min_price (pre ++ r :: post)) c r).s4 := by
  have hp2 : 0 < p2 := lt_of_lt_of_le hp hpp
  have hm2 : min_price (pre ++ ({ r with price := p2 } : Row) :: post) =
      (opt_min (some p2) (minQ (valid_prices (pre ++ post)))).getD 0 :=
    min_price_middle pre post { r with price := p2 } hp2
  have hm1 : min_price (pre ++ r :: post) =
      (opt_min (some r.price) (minQ (valid_prices (pre ++ post)))).getD 0 :=
    min_price_middle pre post r hp
  rw [hm1, hm2]
  rcases hW : minQ (valid_prices (pre ++ post)) with _ | M
  · simp only [opt_min, Option.getD_some]
    simp only [calc_min_ratio]
    rw [if_pos (And.intro hp2 hp2), if_pos (And.intro hp hp),
      div_self hp2.ne', div_self hp.ne']
  · have hM : 0 < M := minQ_pos _ (valid_prices_pos (pre ++ post)) M hW
    simp only [opt_min, Option.getD_some]
    have hmin2 : 0 < min p2 M := lt_min hp2 hM
    have hmin1 : 0 < min r.price M := lt_min hp hM
    simp only [calc_min_ratio]
    rw [if_pos (And.intro hp2 hmin2), if_pos (And.intro hp hmin1)]
    exact ratio_mono r.price p2 M c.max_s4 hp hpp hM hmax

/-- Witness for the amended C8 at concrete tables. -/
theorem calc_min_ratio_own_price_mono_witness :
    (0 : ℚ) ≤ default_config.max_s4 ∧ (0 : ℚ) < row_C.price ∧
    row_C.price ≤ 400 ∧
    (calc_min_ratio (min_price ([] ++ { row_C with price := 400 } :: [row_B]))
        default_config { row_C with price := 400 }).s4 ≤
      (calc_min_ratio (min_price ([] ++ row_C :: [row_B]))
        default_config row_C).s4 :=
  ⟨by norm_num [default_config], by norm_num [row_C], by norm_num [row_C],
    calc_min_ratio_own_price_mono default_config [] [row_B] row_C 400
      (by norm_num [default_config]) (by norm_num [row_C])
      (by norm_num [row_C])⟩
